import Mathlib

/-!
# Verification of the calculator core (`src/cal.js`)

Shallow embedding of the calculator's input-state machine and expression
evaluator.  Strings are modelled as `List Char`; JavaScript numbers are
idealized as exact rationals, with a separate `nonfin` marker standing for
the non-finite values (`Infinity`/`NaN`) that arise from division by zero.
The decimal renderings produced by `Number.prototype.toFixed` /
`parseFloat(..).toString()` / `String(..)` are modelled exactly on the
fixed-notation range; the exponential notation JavaScript switches to for
very small or very large magnitudes is not modelled.
-/

namespace Calc

/-! ## Characters, digits and decimal renderings -/

/-- The character for a single decimal digit value. -/
def digitChar (n : ℕ) : Char := Char.ofNat (48 + n)

/-- Numeric value of a digit character. -/
def digitVal (c : Char) : ℕ := c.toNat - 48

/-- Value of a most-significant-first digit string. -/
def natVal (l : List Char) : ℕ := l.foldl (fun a c => 10 * a + digitVal c) 0

/-- Digit expansion of a natural number, fuelled (most significant first),
accumulating already-produced low digits. -/
def natToCharsAux : ℕ → ℕ → List Char → List Char
  | 0, _, acc => acc
  | f + 1, n, acc =>
    if n < 10 then digitChar n :: acc
    else natToCharsAux f (n / 10) (digitChar (n % 10) :: acc)

/-- Decimal digit string of a natural number, as `String(n)` renders it. -/
def natToChars (n : ℕ) : List Char := natToCharsAux (n + 1) n []

/-- Decimal rendering of an integer, as JavaScript `String(n)` renders it. -/
def intToChars (n : ℤ) : List Char :=
  (if n < 0 then ['-'] else []) ++ natToChars n.natAbs

/-- Exactly `e` fractional digit characters of `f < 10 ^ e`
(most significant first). -/
def fracDigits : ℕ → ℕ → List Char
  | 0, _ => []
  | e + 1, f => digitChar (f / 10 ^ e) :: fracDigits e (f % 10 ^ e)

/-- Drop trailing `'0'` characters, as `parseFloat(s).toString()` does to a
fixed-notation fraction. -/
def stripZeros (l : List Char) : List Char :=
  (l.reverse.dropWhile (fun c => c == '0')).reverse

/-- Rounding used by `toFixed`: nearest integer, ties towards `+∞`. -/
def jsRound (q : ℚ) : ℤ := ⌊q + 1 / 2⌋

/-- Fixed-notation rendering of the rational `n / 10 ^ e` with at most `e`
fractional digits, trailing zeros (and a then-empty fraction part) stripped:
the composite of `toFixed` followed by `parseFloat(..).toString()` on the
fixed-notation range. -/
def renderFixed (e : ℕ) (n : ℤ) : List Char :=
  (if n < 0 then ['-'] else []) ++ natToChars (n.natAbs / 10 ^ e) ++
    (if stripZeros (fracDigits e (n.natAbs % 10 ^ e)) = [] then []
     else '.' :: stripZeros (fracDigits e (n.natAbs % 10 ^ e)))

/-- The value the evaluator's formatting step rounds a non-integer result to:
10 fractional decimal digits (`result.toFixed(10)` re-read as a number). -/
def round10 (q : ℚ) : ℚ := (jsRound (q * 10 ^ 10) : ℚ) / 10 ^ 10

/-- `Number.isInteger(result) ? String(result)
    : String(parseFloat(result.toFixed(10)).toString())`
from `evaluateExpression`, on the idealized rational result. -/
def formatResult (q : ℚ) : List Char :=
  if q.den = 1 then intToChars q.num
  else renderFixed 10 (jsRound (q * 10 ^ 10))

/-- JavaScript `String(x)` on a finite number, idealized: exact on values
with a terminating decimal expansion of at most 40 fractional digits (all
values the accumulator can feed it), 40-digit rounded otherwise. -/
def jsStringOfRat (q : ℚ) : List Char := renderFixed 40 (jsRound (q * 10 ^ 40))

/-! ## JavaScript number values -/

/-- A JavaScript number: a finite (idealized exact rational) value, or the
collapsed non-finite values `Infinity` / `-Infinity` / `NaN`. -/
inductive JSVal where
  | fin (q : ℚ)
  | nonfin
deriving DecidableEq, Repr

/-- Unary minus. -/
def negV : JSVal → JSVal
  | .fin q => .fin (-q)
  | .nonfin => .nonfin

/-- Addition; non-finite operands propagate. -/
def addV : JSVal → JSVal → JSVal
  | .fin a, .fin b => .fin (a + b)
  | _, _ => .nonfin

/-- Subtraction; non-finite operands propagate. -/
def subV : JSVal → JSVal → JSVal
  | .fin a, .fin b => .fin (a - b)
  | _, _ => .nonfin

/-- Multiplication; non-finite operands propagate. -/
def mulV : JSVal → JSVal → JSVal
  | .fin a, .fin b => .fin (a * b)
  | _, _ => .nonfin

/-- Division: division by zero yields a non-finite value, as in JavaScript. -/
def divV : JSVal → JSVal → JSVal
  | .fin a, .fin b => if b = 0 then .nonfin else .fin (a / b)
  | _, _ => .nonfin

/-- Truncation towards zero, used by the JavaScript remainder. -/
def ratTrunc (q : ℚ) : ℤ := if 0 ≤ q then ⌊q⌋ else -⌊-q⌋

/-- JavaScript `%`: remainder with the sign of the dividend; a zero divisor
yields `NaN` (non-finite). -/
def remV : JSVal → JSVal → JSVal
  | .fin a, .fin b => if b = 0 then .nonfin else .fin (a - b * ratTrunc (a / b))
  | _, _ => .nonfin

/-- `String(x)` including the non-finite rendering. -/
def jsValToString : JSVal → List Char
  | .fin q => jsStringOfRat q
  | .nonfin => "Infinity".toList

/-! ## Symbol normalization and the validation predicates of `safeEval` -/

/-- JavaScript whitespace (the characters relevant here). -/
def isWS (c : Char) : Bool :=
  c = ' ' || c = '\t' || c = '\n' || c = '\r' ||
  c = Char.ofNat 11 || c = Char.ofNat 12

/-- The operator-character class `[+\-*/%]` of `safeEval`'s regexes. -/
def isOpChar (c : Char) : Bool :=
  c = '+' || c = '-' || c = '*' || c = '/' || c = '%'

/-- The character whitelist `[0-9+\-*/().%]`. -/
def isAllowedChar (c : Char) : Bool :=
  c.isDigit || isOpChar c || c = '(' || c = ')' || c = '.'

/-- Glyph substitution of `normalizeVisual`: `× ÷ −` to `* / -`. -/
def glyph (c : Char) : Char :=
  if c = '×' then '*' else if c = '÷' then '/' else if c = '−' then '-' else c

/-- `s.trim()`: drop leading and trailing whitespace. -/
def trimWS (l : List Char) : List Char :=
  ((l.dropWhile (fun c => isWS c)).reverse.dropWhile (fun c => isWS c)).reverse

/-- `normalizeVisual`: substitute operator glyphs, then trim. -/
def normalizeVisual (l : List Char) : List Char := trimWS (l.map glyph)

/-- `expr.replace(/\s+/g, '')`: remove all whitespace. -/
def stripWS (l : List Char) : List Char := l.filter (fun c => !isWS c)

/-- All adjacent pairs of operator characters: the witnesses of the regex
`[+\-*/%]{2,}`. -/
def opAdjPairs : List Char → List (Char × Char)
  | a :: b :: t =>
    (if isOpChar a && isOpChar b then [(a, b)] else []) ++ opAdjPairs (b :: t)
  | _ => []

/-- The regex test `/([+\-*/%]{2,})/`: some run of two or more consecutive
operator characters occurs. -/
def hasOpRun (l : List Char) : Bool := !(opAdjPairs l).isEmpty

/-- The regex test for `\(\-`: the substring `(-` occurs somewhere. -/
def containsParenMinus : List Char → Bool
  | a :: b :: t => (a = '(' && b = '-') || containsParenMinus (b :: t)
  | _ => false

/-- The regex test for `^\-`: the expression starts with `-`. -/
def leadingMinus (l : List Char) : Bool := l.head? = some '-'

/-- The whole malformed-expression condition of `safeEval`:
`/([+\-*/%]{2,})/.test(expr) && !/(\(\-)|(^\-)/.test(expr)`. -/
def malformedHit (l : List Char) : Bool :=
  hasOpRun l && !(containsParenMinus l || leadingMinus l)

/-! ## The arithmetic evaluator behind `Function(...)` -/

/-- Longest digit prefix of a character list, and the rest. -/
def takeDigits : List Char → List Char × List Char
  | [] => ([], [])
  | c :: t =>
    if c.isDigit then
      let p := takeDigits (t : List Char)
      (c :: p.1, p.2)
    else ([], c :: t)

/-- A JavaScript numeric literal: digits, an optional decimal point, digits;
at least one digit overall (`5.`, `.5` and `5.5` are all valid, `.` is not). -/
def parseNum (s : List Char) : Option (ℚ × List Char) :=
  let p := takeDigits s
  match p.2 with
  | '.' :: r2 =>
    let p2 := takeDigits r2
    if p.1 = [] ∧ p2.1 = [] then none
    else some ((natVal p.1 : ℚ) + (natVal p2.1 : ℚ) / 10 ^ p2.1.length, p2.2)
  | _ => if p.1 = [] then none else some ((natVal p.1 : ℚ), p.2)

mutual

/-- Additive level: terms separated by binary `+` / `-`
(left associative, lowest precedence). -/
def parseExprF : ℕ → List Char → Option (JSVal × List Char)
  | 0, _ => none
  | f + 1, s => do
    let (v, r) ← parseTermF f s
    parseAddLoop f v r

/-- Left fold of the additive operators. -/
def parseAddLoop : ℕ → JSVal → List Char → Option (JSVal × List Char)
  | 0, _, _ => none
  | f + 1, acc, s =>
    match s with
    | '+' :: r => do
      let (v, r2) ← parseTermF f r
      parseAddLoop f (addV acc v) r2
    | '-' :: r => do
      let (v, r2) ← parseTermF f r
      parseAddLoop f (subV acc v) r2
    | _ => some (acc, s)

/-- Multiplicative level: unary-prefixed primaries separated by `*` / `/` / `%`
(left associative, binding tighter than `+` / `-`). -/
def parseTermF : ℕ → List Char → Option (JSVal × List Char)
  | 0, _ => none
  | f + 1, s => do
    let (v, r) ← parseUnary f s
    parseMulLoop f v r

/-- Left fold of the multiplicative operators. -/
def parseMulLoop : ℕ → JSVal → List Char → Option (JSVal × List Char)
  | 0, _, _ => none
  | f + 1, acc, s =>
    match s with
    | '*' :: r => do
      let (v, r2) ← parseUnary f r
      parseMulLoop f (mulV acc v) r2
    | '/' :: r => do
      let (v, r2) ← parseUnary f r
      parseMulLoop f (divV acc v) r2
    | '%' :: r => do
      let (v, r2) ← parseUnary f r
      parseMulLoop f (remV acc v) r2
    | _ => some (acc, s)

/-- Unary `+` / `-`, parenthesized subexpressions, and numeric literals. -/
def parseUnary : ℕ → List Char → Option (JSVal × List Char)
  | 0, _ => none
  | f + 1, s =>
    match s with
    | '-' :: r => do
      let (v, r2) ← parseUnary f r
      some (negV v, r2)
    | '+' :: r => parseUnary f r
    | '(' :: r => do
      let (v, r2) ← parseExprF f r
      match r2 with
      | ')' :: r3 => some (v, r3)
      | _ => none
    | _ => (parseNum s).map (fun p => (JSVal.fin p.1, p.2))

end

/-- The arithmetic evaluation performed by
`Function('"use strict"; return (' + expr + ')')()` on a whitelisted
expression: `none` models a thrown exception (syntax error), `some v` the
returned number. -/
def jsEval (s : List Char) : Option JSVal :=
  match parseExprF (4 * s.length + 8) s with
  | some (v, []) => some v
  | _ => none

/-! ## `safeEval` and the error taxonomy -/

/-- The error taxonomy of §7 of the design. -/
inductive EvalErr where
  | InvalidCharacter
  | MalformedExpression
  | ExpressionTooLong
  | NonFiniteResult
  | EvaluationError
deriving DecidableEq, Repr

/-- Outcome of the evaluator. -/
inductive EvalResult where
  | ok (v : JSVal)
  | err (e : EvalErr)
deriving DecidableEq, Repr

/-- `safeEval`, parameterized by the arithmetic evaluator that is only
reached after all validation checks pass (in source order: character
whitelist, malformed-operator run, length). -/
def safeEvalGen (ev : List Char → Option JSVal) (expr : List Char) :
    EvalResult :=
  let e := stripWS (normalizeVisual expr)
  if e.any (fun c => !isAllowedChar c) then .err .InvalidCharacter
  else if malformedHit e then .err .MalformedExpression
  else if 180 < e.length then .err .ExpressionTooLong
  else
    match ev e with
    | some v => .ok v
    | none => .err .EvaluationError

/-- `safeEval` from the source. -/
def safeEval : List Char → EvalResult := safeEvalGen jsEval

/-! ## The calculator state machine -/

/-- `current` / `history` / `consumedResult` (the spec's `justEvaluated`). -/
structure CalcState where
  current : List Char
  history : List Char
  consumedResult : Bool
deriving DecidableEq, Repr

/-- The startup state. -/
def initState : CalcState := ⟨['0'], [], false⟩

/-- `appendDigit(d)`. -/
def appendDigit (d : Char) (s : CalcState) : CalcState :=
  if s.consumedResult then
    { s with current := if d = '.' then ['0', '.'] else [d],
             consumedResult := false }
  else if s.current = ['0'] ∧ d ≠ '.' then { s with current := [d] }
  else if d = '.' ∧ '.' ∈ s.current then s
  else { s with current := s.current ++ [d] }

/-- The regex test `/[+\-*/%]$/.test(history)`. -/
def endsWithOp (l : List Char) : Bool :=
  match l.getLast? with
  | some c => isOpChar c
  | none => false

/-- `applyOperator(op)`. -/
def applyOperator (op : Char) (s : CalcState) : CalcState :=
  if s.consumedResult then
    { current := ['0'], history := s.current ++ [op], consumedResult := false }
  else if endsWithOp s.history then
    { current := ['0'], history := s.history.dropLast ++ [op],
      consumedResult := s.consumedResult }
  else
    { current := ['0'], history := s.history ++ s.current ++ [op],
      consumedResult := s.consumedResult }

/-- `doPercent()`.  The second component records a transient error display;
the returned state is the one after the 700 ms `"Err"` reversion. -/
def doPercent (s : CalcState) : CalcState × Option EvalErr :=
  match safeEval s.current with
  | .ok v => ({ s with current := jsValToString (divV v (.fin 100)) }, none)
  | .err e => ({ s with current := ['0'] }, some e)

/-- `backspace()`. -/
def backspace (s : CalcState) : CalcState :=
  if s.consumedResult then { s with current := ['0'], consumedResult := false }
  else
    { s with current :=
        if s.current.length ≤ 1 then ['0'] else s.current.dropLast }

/-- `clearAll()`. -/
def clearAll (_ : CalcState) : CalcState := ⟨['0'], [], false⟩

/-- `evaluateExpression()`.  The second component records a transient error
display (with its kind); an error state is the one after the 700 ms `"Err"`
reversion. -/
def evaluateExpression (s : CalcState) : CalcState × Option EvalErr :=
  let expr := normalizeVisual (s.history ++ s.current)
  if expr = [] then (s, none)
  else
    match safeEval expr with
    | .ok (.fin q) =>
      (⟨formatResult q, expr ++ [' ', '='], true⟩, none)
    | .ok .nonfin => ({ s with current := ['0'] }, some .NonFiniteResult)
    | .err e => ({ s with current := ['0'] }, some e)

/-- States reachable from startup through the interface actions of §6:
digits `0-9` and `.`, the operator keys, percent, backspace, clear,
evaluate. -/
inductive Reachable : CalcState → Prop
  | init : Reachable initState
  | digit {s d} : Reachable s → (d.isDigit ∨ d = '.') →
      Reachable (appendDigit d s)
  | op {s o} : Reachable s → o ∈ (['+', '-', '*', '/', '%'] : List Char) →
      Reachable (applyOperator o s)
  | percent {s} : Reachable s → Reachable (doPercent s).1
  | back {s} : Reachable s → Reachable (backspace s)
  | clear {s} : Reachable s → Reachable (clearAll s)
  | eval {s} : Reachable s → Reachable (evaluateExpression s).1

/-! ## The decimal-string denotation (used to state the formatting claim) -/

/-- Value of an unsigned decimal string `digits＋ ( '.' digits＋ )?`,
anchored (the whole list must be consumed). -/
def decValuePos (s : List Char) : Option ℚ :=
  let p := takeDigits s
  if p.1 = [] then none
  else
    match p.2 with
    | [] => some (natVal p.1 : ℚ)
    | '.' :: rest =>
      let p2 := takeDigits rest
      if p2.1 = [] ∨ p2.2 ≠ [] then none
      else some ((natVal p.1 : ℚ) + (natVal p2.1 : ℚ) / 10 ^ p2.1.length)
    | _ => none

/-- Value of a decimal string with an optional leading minus sign: the
"equivalent decimal string" denotation of the formatting rule. -/
def decValue : List Char → Option ℚ
  | '-' :: r => (decValuePos r).map (fun q => -q)
  | s => decValuePos s

/-- No trailing zeros: if the string has a fraction part, it neither ends in
`'0'` nor in the decimal point itself. -/
def noTrailingZeros (l : List Char) : Prop :=
  '.' ∈ l → l.getLast? ≠ some '0' ∧ l.getLast? ≠ some '.'

/-! ## Lemmas: digit strings and their values -/

theorem foldl_digit (t : List Char) :
    ∀ a : ℕ, t.foldl (fun a c => 10 * a + digitVal c) a
      = a * 10 ^ t.length + natVal t := by
  induction t with
  | nil => intro a; simp [natVal]
  | cons c t ih =>
    intro a
    have hv : natVal (c :: t) = (10 * 0 + digitVal c) * 10 ^ t.length + natVal t := by
      rw [natVal, List.foldl_cons, ih]
    rw [List.foldl_cons, ih, hv, List.length_cons]
    ring

theorem natVal_append (l1 l2 : List Char) :
    natVal (l1 ++ l2) = natVal l1 * 10 ^ l2.length + natVal l2 := by
  rw [natVal, List.foldl_append, ← natVal, foldl_digit]

theorem digitChar_facts : ∀ d : ℕ, d < 10 →
    (digitChar d).isDigit = true ∧ digitVal (digitChar d) = d ∧
    digitChar d ≠ '.' ∧ digitChar d ≠ '-' ∧ (digitChar d = '0' ↔ d = 0) := by
  decide

theorem natVal_replicate_zero (k : ℕ) : natVal (List.replicate k '0') = 0 := by
  induction k with
  | zero => rfl
  | succ k ih =>
    have h0 : digitVal '0' = 0 := by decide
    rw [List.replicate_succ, natVal, List.foldl_cons, foldl_digit, ih, h0]
    simp

theorem natToCharsAux_acc (f : ℕ) : ∀ (n : ℕ) (acc : List Char),
    natToCharsAux f n acc = natToCharsAux f n [] ++ acc := by
  induction f with
  | zero => intro n acc; rfl
  | succ f ih =>
    intro n acc
    by_cases h : n < 10
    · simp [natToCharsAux, h]
    · simp only [natToCharsAux, if_neg h]
      rw [ih (n / 10) (digitChar (n % 10) :: acc),
        ih (n / 10) [digitChar (n % 10)], List.append_assoc]
      rfl

theorem natToCharsAux_digits (f : ℕ) : ∀ (n : ℕ) (c : Char),
    c ∈ natToCharsAux f n [] → ∃ d, d < 10 ∧ c = digitChar d := by
  induction f with
  | zero => intro n c h; simp [natToCharsAux] at h
  | succ f ih =>
    intro n c h
    by_cases h10 : n < 10
    · simp only [natToCharsAux, if_pos h10, List.mem_singleton] at h
      exact ⟨n, h10, h⟩
    · simp only [natToCharsAux, if_neg h10] at h
      rw [natToCharsAux_acc, List.mem_append] at h
      rcases h with h | h
      · exact ih _ _ h
      · simp only [List.mem_singleton] at h
        exact ⟨n % 10, Nat.mod_lt _ (by norm_num), h⟩

theorem natVal_natToCharsAux (f : ℕ) : ∀ n : ℕ, n < 10 ^ f →
    natVal (natToCharsAux f n []) = n := by
  induction f with
  | zero =>
    intro n h
    rw [pow_zero] at h
    interval_cases n
    rfl
  | succ f ih =>
    intro n h
    by_cases h10 : n < 10
    · simp only [natToCharsAux, if_pos h10]
      rw [natVal, List.foldl_cons, List.foldl_nil]
      have := (digitChar_facts n h10).2.1
      omega
    · simp only [natToCharsAux, if_neg h10]
      rw [natToCharsAux_acc, natVal_append, ih (n / 10) ?hlt]
      case hlt =>
        rw [pow_succ] at h
        exact Nat.div_lt_iff_lt_mul (by norm_num) |>.2 h
      rw [natVal, List.foldl_cons, List.foldl_nil, List.length_singleton]
      have := (digitChar_facts (n % 10) (Nat.mod_lt _ (by norm_num))).2.1
      omega

theorem natVal_natToChars (n : ℕ) : natVal (natToChars n) = n := by
  refine natVal_natToCharsAux (n + 1) n ?_
  calc n < 2 ^ n := Nat.lt_two_pow n
    _ ≤ 10 ^ n := Nat.pow_le_pow_left (by norm_num) n
    _ ≤ 10 ^ (n + 1) := Nat.pow_le_pow_right (by norm_num) (Nat.le_succ n)

theorem natToChars_digits (n : ℕ) :
    ∀ c ∈ natToChars n, ∃ d, d < 10 ∧ c = digitChar d :=
  fun c h => natToCharsAux_digits (n + 1) n c h

theorem natToChars_ne_nil (n : ℕ) : natToChars n ≠ [] := by
  unfold natToChars natToCharsAux
  by_cases h : n < 10
  · simp [h]
  · rw [if_neg h, natToCharsAux_acc]
    simp

theorem natToChars_isDigit (n : ℕ) : ∀ c ∈ natToChars n, c.isDigit = true := by
  intro c hc
  obtain ⟨d, hd, rfl⟩ := natToChars_digits n c hc
  exact (digitChar_facts d hd).1

theorem natToChars_no_dot (n : ℕ) : '.' ∉ natToChars n := by
  intro h
  obtain ⟨d, hd, hdc⟩ := natToChars_digits n '.' h
  exact (digitChar_facts d hd).2.2.1 hdc.symm

theorem fracDigits_length (e : ℕ) : ∀ f : ℕ, (fracDigits e f).length = e := by
  induction e with
  | zero => intro f; rfl
  | succ e ih => intro f; rw [fracDigits, List.length_cons, ih]

theorem fracDigits_digits (e : ℕ) : ∀ f : ℕ, f < 10 ^ e →
    ∀ c ∈ fracDigits e f, ∃ d, d < 10 ∧ c = digitChar d := by
  induction e with
  | zero => intro f _ c h; simp [fracDigits] at h
  | succ e ih =>
    intro f hf c h
    rw [fracDigits, List.mem_cons] at h
    rcases h with h | h
    · refine ⟨f / 10 ^ e, ?_, h⟩
      rw [pow_succ, mul_comm] at hf
      exact (Nat.div_lt_iff_lt_mul (by positivity)).2 hf
    · exact ih (f % 10 ^ e) (Nat.mod_lt _ (by positivity)) c h

theorem natVal_fracDigits (e : ℕ) : ∀ f : ℕ, f < 10 ^ e →
    natVal (fracDigits e f) = f := by
  induction e with
  | zero =>
    intro f h
    rw [pow_zero] at h
    interval_cases f
    rfl
  | succ e ih =>
    intro f hf
    have : fracDigits (e + 1) f
        = [digitChar (f / 10 ^ e)] ++ fracDigits e (f % 10 ^ e) := rfl
    rw [this, natVal_append, ih (f % 10 ^ e) (Nat.mod_lt _ (by positivity)),
      fracDigits_length]
    have hdiv : f / 10 ^ e < 10 := by
      rw [pow_succ, mul_comm] at hf
      exact (Nat.div_lt_iff_lt_mul (by positivity)).2 hf
    have hd := (digitChar_facts (f / 10 ^ e) hdiv).2.1
    rw [natVal, List.foldl_cons, List.foldl_nil, hd, Nat.mul_zero, Nat.zero_add,
      Nat.mul_comm]
    exact Nat.div_add_mod f (10 ^ e)

/-! ## Lemmas: stripping trailing zeros -/

theorem stripZeros_spec (l : List Char) :
    ∃ k, l = stripZeros l ++ List.replicate k '0' := by
  refine ⟨(l.reverse.takeWhile (fun c => c == '0')).length, ?_⟩
  unfold stripZeros
  conv_lhs => rw [← l.reverse_reverse,
    ← List.takeWhile_append_dropWhile (p := fun c => c == '0') (l := l.reverse)]
  rw [List.reverse_append]
  congr 1
  have hmem : ∀ c ∈ l.reverse.takeWhile (fun c => c == '0'), c = '0' := by
    intro c hc
    have := List.mem_takeWhile_imp hc
    simpa using this
  rw [List.eq_replicate_of_mem hmem, List.reverse_replicate]
  simp

theorem stripZeros_getLast (l : List Char) :
    (stripZeros l).getLast? ≠ some '0' := by
  unfold stripZeros
  rw [List.getLast?_reverse]
  intro h
  have hd := List.head?_dropWhile_not (fun c => c == '0') l.reverse
  rw [h] at hd
  simp at hd

theorem stripZeros_subset (l : List Char) : ∀ c ∈ stripZeros l, c ∈ l := by
  intro c hc
  unfold stripZeros at hc
  rw [List.mem_reverse] at hc
  have := (List.dropWhile_sublist (l := l.reverse) (fun c => c == '0')).subset hc
  rwa [List.mem_reverse] at this

/-! ## Lemmas: reading a rendered decimal string back -/

theorem takeDigits_append (A B : List Char) (hA : ∀ c ∈ A, c.isDigit = true)
    (hB : ∀ c, B.head? = some c → c.isDigit = false) :
    takeDigits (A ++ B) = (A, B) := by
  induction A with
  | nil =>
    cases B with
    | nil => rfl
    | cons c t =>
      have hc := hB c rfl
      simp only [List.nil_append, takeDigits, hc]
      simp
  | cons a A ih =>
    have ha := hA a (List.mem_cons_self a A)
    simp only [List.cons_append, takeDigits, ha, if_pos, List.append_eq]
    rw [ih (fun c hc => hA c (List.mem_cons_of_mem a hc))]

theorem decValue_eq_pos (l : List Char) (h : l.head? ≠ some '-') :
    decValue l = decValuePos l := by
  cases l with
  | nil => rfl
  | cons c t =>
    by_cases hc : c = '-'
    · subst hc; exact absurd rfl h
    · unfold decValue
      split
      · next heq => rw [List.cons.injEq] at heq; exact absurd heq.1 hc
      · rfl

theorem decValuePos_natToChars (m : ℕ) :
    decValuePos (natToChars m) = some (m : ℚ) := by
  have h1 : takeDigits (natToChars m) = (natToChars m, []) := by
    conv_lhs => rw [← List.append_nil (natToChars m)]
    exact takeDigits_append _ _ (natToChars_isDigit m)
      (fun c hc => absurd hc (by simp))
  unfold decValuePos
  rw [h1, if_neg (by simpa using natToChars_ne_nil m)]
  rw [natVal_natToChars]

theorem decValuePos_render (e a : ℕ) :
    decValuePos (natToChars (a / 10 ^ e) ++
      (if stripZeros (fracDigits e (a % 10 ^ e)) = [] then []
       else '.' :: stripZeros (fracDigits e (a % 10 ^ e))))
    = some ((a : ℚ) / 10 ^ e) := by
  have hpow : (0 : ℕ) < 10 ^ e := by positivity
  have hflt : a % 10 ^ e < 10 ^ e := Nat.mod_lt _ hpow
  set fs := stripZeros (fracDigits e (a % 10 ^ e)) with hfsdef
  obtain ⟨k, hk⟩ := stripZeros_spec (fracDigits e (a % 10 ^ e))
  have hlen : fs.length + k = e := by
    have h := fracDigits_length e (a % 10 ^ e)
    rw [hk] at h
    simpa using h
  have hval : natVal fs * 10 ^ k = a % 10 ^ e := by
    have h := natVal_fracDigits e (a % 10 ^ e) hflt
    rw [hk, natVal_append, natVal_replicate_zero, List.length_replicate,
      ← hfsdef] at h
    omega
  have hand : a = a / 10 ^ e * 10 ^ e + a % 10 ^ e := by
    rw [Nat.mul_comm]
    exact (Nat.div_add_mod a (10 ^ e)).symm
  by_cases hfs : fs = []
  · rw [if_pos hfs, List.append_nil, decValuePos_natToChars]
    have hf0 : a % 10 ^ e = 0 := by
      rw [hfs] at hval
      simp [natVal] at hval
      omega
    have ha : a = a / 10 ^ e * 10 ^ e := by omega
    have hq : (a : ℚ) = ((a / 10 ^ e : ℕ) : ℚ) * 10 ^ e := by
      exact_mod_cast congrArg (Nat.cast (R := ℚ)) ha
    congr 1
    rw [hq, mul_div_assoc, div_self (by positivity : (10 : ℚ) ^ e ≠ 0), mul_one]
  · rw [if_neg hfs]
    have hdig : ∀ c ∈ fs, c.isDigit = true := by
      intro c hc
      obtain ⟨d, hd, rfl⟩ :=
        fracDigits_digits e (a % 10 ^ e) hflt c (stripZeros_subset _ c hc)
      exact (digitChar_facts d hd).1
    have h1 : takeDigits (natToChars (a / 10 ^ e) ++ '.' :: fs)
        = (natToChars (a / 10 ^ e), '.' :: fs) := by
      refine takeDigits_append _ _ (natToChars_isDigit _) ?_
      intro c hc
      simp only [List.head?_cons, Option.some.injEq] at hc
      subst hc
      decide
    have h2 : takeDigits fs = (fs, []) := by
      conv_lhs => rw [← List.append_nil fs]
      exact takeDigits_append _ _ hdig (fun c hc => absurd hc (by simp))
    unfold decValuePos
    rw [h1]
    rw [if_neg (by simpa using natToChars_ne_nil (a / 10 ^ e))]
    simp only [h2]
    rw [if_neg (by simpa using hfs)]
    rw [natVal_natToChars]
    congr 1
    have hn : a = a / 10 ^ e * 10 ^ e + natVal fs * 10 ^ k := by
      conv_lhs => rw [hand]
      rw [← hval]
    have key : (a : ℚ)
        = ((a / 10 ^ e : ℕ) : ℚ) * 10 ^ e + (natVal fs : ℚ) * 10 ^ k := by
      exact_mod_cast congrArg (Nat.cast (R := ℚ)) hn
    have hsplit : (10 : ℚ) ^ e = 10 ^ fs.length * 10 ^ k := by
      rw [← hlen, pow_add]
    rw [key, hsplit]
    have hz1 : (10 : ℚ) ^ fs.length ≠ 0 := by positivity
    have hz2 : (10 : ℚ) ^ k ≠ 0 := by positivity
    field_simp
    ring

theorem decValue_renderFixed (e : ℕ) (n : ℤ) :
    decValue (renderFixed e n) = some ((n : ℚ) / 10 ^ e) := by
  unfold renderFixed
  by_cases hn : n < 0
  · rw [if_pos hn]
    have hsh : (['-'] ++ natToChars (n.natAbs / 10 ^ e) ++
        (if stripZeros (fracDigits e (n.natAbs % 10 ^ e)) = [] then []
         else '.' :: stripZeros (fracDigits e (n.natAbs % 10 ^ e))))
        = '-' :: (natToChars (n.natAbs / 10 ^ e) ++
        (if stripZeros (fracDigits e (n.natAbs % 10 ^ e)) = [] then []
         else '.' :: stripZeros (fracDigits e (n.natAbs % 10 ^ e)))) := by
      simp
    rw [hsh]
    show (decValuePos _).map _ = _
    rw [decValuePos_render e n.natAbs]
    have habs : ((n.natAbs : ℚ)) = -(n : ℚ) := by
      rw [Int.cast_natAbs, abs_of_neg hn]
      push_cast
      ring
    rw [Option.map_some', habs, neg_div, neg_neg]
  · rw [if_neg hn, List.nil_append]
    have hhead : (natToChars (n.natAbs / 10 ^ e) ++
        (if stripZeros (fracDigits e (n.natAbs % 10 ^ e)) = [] then []
         else '.' :: stripZeros (fracDigits e (n.natAbs % 10 ^ e)))).head?
        ≠ some '-' := by
      cases hnc : natToChars (n.natAbs / 10 ^ e) with
      | nil => exact absurd hnc (natToChars_ne_nil _)
      | cons c t =>
        rw [List.cons_append, List.head?_cons]
        have hc : c ∈ natToChars (n.natAbs / 10 ^ e) := by
          rw [hnc]; exact List.mem_cons_self c t
        obtain ⟨d, hd, rfl⟩ := natToChars_digits _ c hc
        have hne := (digitChar_facts d hd).2.2.2.1
        intro h
        rw [Option.some.injEq] at h
        exact hne h
    rw [decValue_eq_pos _ hhead, decValuePos_render e n.natAbs]
    have habs : ((n.natAbs : ℚ)) = (n : ℚ) := by
      rw [Int.cast_natAbs, abs_of_nonneg (not_lt.1 hn)]
    rw [habs]

/-! ## Lemmas: shapes of rendered numbers -/

theorem natToChars_append_head (m : ℕ) (l2 : List Char) :
    (natToChars m ++ l2).head? ≠ some '-' := by
  cases hnc : natToChars m with
  | nil => exact absurd hnc (natToChars_ne_nil _)
  | cons c t =>
    rw [List.cons_append, List.head?_cons]
    have hc : c ∈ natToChars m := by rw [hnc]; exact List.mem_cons_self c t
    obtain ⟨d, hd, rfl⟩ := natToChars_digits _ c hc
    intro h
    rw [Option.some.injEq] at h
    exact (digitChar_facts d hd).2.2.2.1 h

theorem decValue_intToChars (m : ℤ) : decValue (intToChars m) = some (m : ℚ) := by
  unfold intToChars
  by_cases hm : m < 0
  · rw [if_pos hm]
    show (decValuePos (natToChars m.natAbs)).map _ = _
    rw [decValuePos_natToChars, Option.map_some']
    congr 1
    rw [Int.cast_natAbs, abs_of_neg hm]
    push_cast
    ring
  · rw [if_neg hm, List.nil_append]
    have hhead : (natToChars m.natAbs).head? ≠ some '-' := by
      have h := natToChars_append_head m.natAbs []
      rwa [List.append_nil] at h
    rw [decValue_eq_pos _ hhead, decValuePos_natToChars]
    congr 1
    rw [Int.cast_natAbs, abs_of_nonneg (not_lt.1 hm)]

theorem intToChars_no_dot (m : ℤ) : '.' ∉ intToChars m := by
  intro h
  unfold intToChars at h
  rw [List.mem_append] at h
  rcases h with h | h
  · by_cases hm : m < 0
    · rw [if_pos hm] at h; exact absurd h (by decide)
    · rw [if_neg hm] at h; exact absurd h (by decide)
  · exact natToChars_no_dot _ h

theorem stripZeros_fracDigits_no_dot (e a : ℕ) :
    '.' ∉ stripZeros (fracDigits e (a % 10 ^ e)) := by
  intro hmem
  have hflt : a % 10 ^ e < 10 ^ e := Nat.mod_lt _ (by positivity)
  obtain ⟨d, hd, hdc⟩ :=
    fracDigits_digits e (a % 10 ^ e) hflt '.' (stripZeros_subset _ _ hmem)
  exact (digitChar_facts d hd).2.2.1 hdc.symm

theorem count_dot_renderFixed (e : ℕ) (n : ℤ) :
    (renderFixed e n).count '.' ≤ 1 := by
  unfold renderFixed
  rw [List.count_append, List.count_append]
  have h1 : (if n < 0 then ['-'] else []).count '.' = 0 := by
    by_cases hn : n < 0
    · rw [if_pos hn]; decide
    · rw [if_neg hn]; decide
  have h2 : (natToChars (n.natAbs / 10 ^ e)).count '.' = 0 :=
    List.count_eq_zero.2 (natToChars_no_dot _)
  have h3 : (if stripZeros (fracDigits e (n.natAbs % 10 ^ e)) = [] then []
      else '.' :: stripZeros (fracDigits e (n.natAbs % 10 ^ e))).count '.' ≤ 1 := by
    by_cases hfs : stripZeros (fracDigits e (n.natAbs % 10 ^ e)) = []
    · rw [if_pos hfs]; decide
    · rw [if_neg hfs, List.count_cons_self,
        List.count_eq_zero.2 (stripZeros_fracDigits_no_dot e n.natAbs)]
  omega

theorem noTrailingZeros_renderFixed (e : ℕ) (n : ℤ) :
    noTrailingZeros (renderFixed e n) := by
  intro hdot
  unfold renderFixed at hdot ⊢
  by_cases hfs : stripZeros (fracDigits e (n.natAbs % 10 ^ e)) = []
  · exfalso
    rw [if_pos hfs, List.append_nil, List.mem_append] at hdot
    rcases hdot with h | h
    · by_cases hn : n < 0
      · rw [if_pos hn] at h; exact absurd h (by decide)
      · rw [if_neg hn] at h; exact absurd h (by decide)
    · exact natToChars_no_dot _ h
  · rw [if_neg hfs]
    have hlast : ((if n < 0 then ['-'] else []) ++ natToChars (n.natAbs / 10 ^ e) ++
        '.' :: stripZeros (fracDigits e (n.natAbs % 10 ^ e))).getLast?
        = (stripZeros (fracDigits e (n.natAbs % 10 ^ e))).getLast? := by
      rw [List.getLast?_append]
      obtain ⟨c0, t0, heq⟩ := List.exists_cons_of_ne_nil hfs
      rw [heq, List.getLast?_cons_cons, ← heq,
        List.getLast?_eq_getLast _ hfs]
      rfl
    rw [hlast]
    refine ⟨stripZeros_getLast _, ?_⟩
    intro h
    rw [List.getLast?_eq_getLast _ hfs, Option.some.injEq] at h
    have hmem : '.' ∈ stripZeros (fracDigits e (n.natAbs % 10 ^ e)) := by
      rw [← h]
      exact List.getLast_mem hfs
    exact stripZeros_fracDigits_no_dot e n.natAbs hmem

theorem noTrailingZeros_intToChars (m : ℤ) : noTrailingZeros (intToChars m) :=
  fun hdot => absurd hdot (intToChars_no_dot m)

theorem count_dot_formatResult (q : ℚ) : (formatResult q).count '.' ≤ 1 := by
  unfold formatResult
  by_cases hq : q.den = 1
  · rw [if_pos hq, List.count_eq_zero.2 (intToChars_no_dot _)]
    omega
  · rw [if_neg hq]
    exact count_dot_renderFixed _ _

theorem count_dot_jsValToString (v : JSVal) :
    (jsValToString v).count '.' ≤ 1 := by
  cases v with
  | fin q => exact count_dot_renderFixed _ _
  | nonfin => decide

/-! ## Lemmas: the rounding error of `toFixed(10)` -/

theorem jsRound_near (q : ℚ) : |(jsRound q : ℚ) - q| ≤ 1 / 2 := by
  unfold jsRound
  rw [abs_le]
  constructor
  · have h := Int.lt_floor_add_one (q + 1 / 2)
    linarith
  · have h := Int.floor_le (q + 1 / 2)
    linarith

theorem round10_near (q : ℚ) : |round10 q - q| ≤ 1 / (2 * 10 ^ 10) := by
  have h := jsRound_near (q * 10 ^ 10)
  have hpos : (0 : ℚ) < 10 ^ 10 := by positivity
  have key : round10 q - q
      = ((jsRound (q * 10 ^ 10) : ℚ) - q * 10 ^ 10) / 10 ^ 10 := by
    unfold round10
    field_simp
    ring
  rw [key, abs_div, abs_of_pos hpos]
  calc |(jsRound (q * 10 ^ 10) : ℚ) - q * 10 ^ 10| / 10 ^ 10
      ≤ (1 / 2) / 10 ^ 10 := (div_le_div_iff_of_pos_right hpos).2 h
    _ = 1 / (2 * 10 ^ 10) := by norm_num


/-! ## Lemmas: the decimal-point invariant of the state machine -/

theorem applyOperator_current (op : Char) (s : CalcState) :
    (applyOperator op s).current = ['0'] := by
  unfold applyOperator
  split_ifs <;> rfl

theorem appendDigit_dots (d : Char) (s : CalcState)
    (h : s.current.count '.' ≤ 1) : (appendDigit d s).current.count '.' ≤ 1 := by
  unfold appendDigit
  by_cases h1 : s.consumedResult
  · rw [if_pos h1]
    by_cases hd : d = '.'
    · rw [if_pos hd]
      exact (by decide : (['0', '.'] : List Char).count '.' ≤ 1)
    · rw [if_neg hd]
      exact le_trans (List.count_le_length '.' [d]) (by simp)
  · rw [if_neg h1]
    by_cases h2 : s.current = ['0'] ∧ d ≠ '.'
    · rw [if_pos h2]
      exact le_trans (List.count_le_length '.' [d]) (by simp)
    · rw [if_neg h2]
      by_cases h3 : d = '.' ∧ '.' ∈ s.current
      · rw [if_pos h3]; exact h
      · rw [if_neg h3]
        show (s.current ++ [d]).count '.' ≤ 1
        rw [List.count_append]
        by_cases hd : d = '.'
        · have hmem : '.' ∉ s.current := fun hm => h3 ⟨hd, hm⟩
          rw [List.count_eq_zero.2 hmem, hd]
          decide
        · have hz : ([d].count '.') = 0 := by
            rw [List.count_eq_zero, List.mem_singleton]
            exact fun hc => hd hc.symm
          omega

theorem doPercent_dots (s : CalcState) :
    (doPercent s).1.current.count '.' ≤ 1 := by
  unfold doPercent
  cases hs : safeEval s.current with
  | ok v => exact count_dot_jsValToString (divV v (.fin 100))
  | err e => exact (by decide : (['0'] : List Char).count '.' ≤ 1)

theorem backspace_dots (s : CalcState) (h : s.current.count '.' ≤ 1) :
    (backspace s).current.count '.' ≤ 1 := by
  unfold backspace
  by_cases h1 : s.consumedResult
  · rw [if_pos h1]
    exact (by decide : (['0'] : List Char).count '.' ≤ 1)
  · rw [if_neg h1]
    by_cases h2 : s.current.length ≤ 1
    · rw [if_pos h2]
      exact (by decide : (['0'] : List Char).count '.' ≤ 1)
    · rw [if_neg h2]
      exact le_trans ((List.dropLast_sublist s.current).count_le '.') h

theorem evaluateExpression_dots (s : CalcState) (h : s.current.count '.' ≤ 1) :
    (evaluateExpression s).1.current.count '.' ≤ 1 := by
  simp only [evaluateExpression]
  by_cases h1 : normalizeVisual (s.history ++ s.current) = []
  · rw [if_pos h1]; exact h
  · rw [if_neg h1]
    cases hs : safeEval (normalizeVisual (s.history ++ s.current)) with
    | ok v =>
      cases v with
      | fin q => exact count_dot_formatResult q
      | nonfin => exact (by decide : (['0'] : List Char).count '.' ≤ 1)
    | err e => exact (by decide : (['0'] : List Char).count '.' ≤ 1)

theorem reachable_dots {s : CalcState} (h : Reachable s) :
    s.current.count '.' ≤ 1 := by
  induction h with
  | init => decide
  | digit hr hd ih => exact appendDigit_dots _ _ ih
  | op hr ho ih =>
    rw [applyOperator_current]
    exact (by decide : (['0'] : List Char).count '.' ≤ 1)
  | percent hr ih => exact doPercent_dots _
  | back hr ih => exact backspace_dots _ ih
  | clear hr ih => exact (by decide : (['0'] : List Char).count '.' ≤ 1)
  | eval hr ih => exact evaluateExpression_dots _ ih

/-! ## Lemmas: operator handling -/

theorem endsWithOp_concat (l : List Char) (c : Char) (h : isOpChar c = true) :
    endsWithOp (l ++ [c]) = true := by
  unfold endsWithOp
  rw [List.getLast?_concat]
  exact h


/-! ## Claim theorems -/

set_option maxRecDepth 100000

/-- C1, counterexample.  The expression `(-1)*-2` (after whitespace stripping)
contains the operator run `*-`, which is neither a parenthesis-open followed
by unary minus nor at the start of the expression (the expression starts with
`(`); yet `safeEval` accepts it and evaluates it to `2`, because the code's
regex exempts the whole expression as soon as `(-` occurs anywhere.  This
refutes the claim that such an expression fails with `MalformedExpression`. -/
theorem opRun_accepted_with_parenMinus_elsewhere :
    hasOpRun (stripWS (normalizeVisual ("(-1)*-2".toList))) = true ∧
    (stripWS (normalizeVisual ("(-1)*-2".toList))).head? = some '(' ∧
    opAdjPairs (stripWS (normalizeVisual ("(-1)*-2".toList))) = [('*', '-')] ∧
    safeEval ("(-1)*-2".toList) = .ok (.fin 2) := by
  with_unfolding_all decide

/-- C1 (amended).  `safeEval` fails with `MalformedExpression` exactly when
the whitespace-stripped expression passes the character whitelist, contains a
run of two or more consecutive operator characters, and neither contains the
substring `(-` anywhere nor starts with `-`; when either exempting pattern
occurs anywhere in the expression, every operator run is accepted by this
check. -/
theorem malformed_error_characterization (expr : List Char) :
    safeEval expr = .err .MalformedExpression ↔
      ((stripWS (normalizeVisual expr)).any (fun c => !isAllowedChar c) = false ∧
        malformedHit (stripWS (normalizeVisual expr)) = true) := by
  simp only [safeEval, safeEvalGen]
  by_cases h1 : (stripWS (normalizeVisual expr)).any (fun c => !isAllowedChar c) = true
  · rw [if_pos h1]
    constructor
    · intro h
      exact absurd h (by simp)
    · rintro ⟨ha, -⟩
      rw [h1] at ha
      exact absurd ha (by simp)
  · have h1w : (stripWS (normalizeVisual expr)).any (fun c => !isAllowedChar c) = false := by
      revert h1
      cases (stripWS (normalizeVisual expr)).any (fun c => !isAllowedChar c) <;> simp
    rw [if_neg h1]
    by_cases h2 : malformedHit (stripWS (normalizeVisual expr)) = true
    · rw [if_pos h2]
      simp [h1w, h2]
    · have h2w : malformedHit (stripWS (normalizeVisual expr)) = false := by
        revert h2
        cases malformedHit (stripWS (normalizeVisual expr)) <;> simp
      rw [if_neg h2]
      by_cases h3 : 180 < (stripWS (normalizeVisual expr)).length
      · rw [if_pos h3]
        constructor
        · intro h
          exact absurd h (by simp)
        · rintro ⟨-, hb⟩
          rw [h2w] at hb
          exact absurd hb (by simp)
      · rw [if_neg h3]
        cases hj : jsEval (stripWS (normalizeVisual expr)) with
        | some v =>
          constructor
          · intro h
            exact absurd h (by simp)
          · rintro ⟨-, hb⟩
            rw [h2w] at hb
            exact absurd hb (by simp)
        | none =>
          constructor
          · intro h
            exact absurd h (by simp)
          · rintro ⟨-, hb⟩
            rw [h2w] at hb
            exact absurd hb (by simp)

/-- Witness for the amended C1 at the concrete input `0++0`. -/
theorem malformed_error_characterization_witness :
    safeEval ("0++0".toList) = .err .MalformedExpression :=
  (malformed_error_characterization ("0++0".toList)).2
    (by with_unfolding_all decide)

/-- C2, counterexample.  From the reachable state
`{current := "5", history := "2+3 =", justEvaluated := true}` (the state right
after evaluating `2+3`), pressing evaluate again fails (the `=` character is
not whitelisted), yet `justEvaluated` stays `true` after the failed evaluate,
refuting "justEvaluated remains false". -/
theorem failed_evaluate_keeps_justEvaluated :
    (evaluateExpression ⟨"5".toList, "2+3 =".toList, true⟩).2
        = some EvalErr.InvalidCharacter ∧
    (evaluateExpression ⟨"5".toList, "2+3 =".toList, true⟩).1.consumedResult
        = true := by
  with_unfolding_all decide

/-- C2 (amended).  Whenever `evaluateExpression` fails (with any error kind),
the state after the transient error display has `current` reset to `"0"`,
while `history` and `justEvaluated` are both left unchanged (in particular
`justEvaluated` stays `false` whenever it was `false` before the attempt). -/
theorem failed_evaluate_state (s : CalcState) (e : EvalErr)
    (h : (evaluateExpression s).2 = some e) :
    (evaluateExpression s).1 = { s with current := ['0'] } := by
  simp only [evaluateExpression] at h ⊢
  by_cases hempty : normalizeVisual (s.history ++ s.current) = []
  · rw [if_pos hempty] at h
    exact absurd h (by simp)
  · rw [if_neg hempty] at h ⊢
    cases hse : safeEval (normalizeVisual (s.history ++ s.current)) with
    | ok v =>
      cases v with
      | fin q =>
        rw [hse] at h
        exact absurd h (by simp)
      | nonfin => rfl
    | err e2 => rfl

/-- Witness for the amended C2 at a concrete failing state. -/
theorem failed_evaluate_state_witness :
    (evaluateExpression ⟨"5".toList, "++".toList, false⟩).2
        = some EvalErr.MalformedExpression ∧
    (evaluateExpression ⟨"5".toList, "++".toList, false⟩).1
        = ⟨"0".toList, "++".toList, false⟩ := by
  constructor
  · with_unfolding_all decide
  · rw [failed_evaluate_state ⟨"5".toList, "++".toList, false⟩
      EvalErr.MalformedExpression (by with_unfolding_all decide)]
    with_unfolding_all decide

/-- C3.  Starting from any reachable state, any sequence of `appendDigit`
inputs drawn from the digits `0`-`9` and `.` leaves at most one decimal
point in `current`; in particular a duplicate `.` input is a no-op on
`current`. -/
theorem appendDigit_single_dot (s : CalcState) (hs : Reachable s)
    (ds : List Char) (hd : ∀ d ∈ ds, d.isDigit = true ∨ d = '.') :
    ((ds.foldl (fun t d => appendDigit d t) s).current.count '.') ≤ 1 := by
  induction ds generalizing s with
  | nil => simpa using reachable_dots hs
  | cons d ds ih =>
    rw [List.foldl_cons]
    exact ih (appendDigit d s)
      (Reachable.digit hs (hd d (List.mem_cons_self d ds)))
      (fun c hc => hd c (List.mem_cons_of_mem d hc))

/-- Witness for C3: from the startup state, the inputs `.`, `.`, `1`
leave a single decimal point in `current`. -/
theorem appendDigit_single_dot_witness :
    (((['.', '.', '1'] : List Char).foldl (fun t d => appendDigit d t)
        initState).current.count '.') ≤ 1 :=
  appendDigit_single_dot initState Reachable.init ['.', '.', '1'] (by decide)

/-- C4.  For any state and any two operators among `+ - * /`, applying
`applyOperator o1` and then `applyOperator o2` produces exactly the state of
applying `applyOperator o2` alone: the second operator replaces the trailing
operator of `history`. -/
theorem operator_replacement_collapse (s : CalcState) (o1 o2 : Char)
    (h1 : o1 ∈ (['+', '-', '*', '/'] : List Char))
    (_h2 : o2 ∈ (['+', '-', '*', '/'] : List Char)) :
    applyOperator o2 (applyOperator o1 s) = applyOperator o2 s := by
  have ho1 : isOpChar o1 = true := by fin_cases h1 <;> decide
  by_cases hc : s.consumedResult
  · have e1 : applyOperator o1 s = ⟨['0'], s.current ++ [o1], false⟩ := by
      unfold applyOperator
      rw [if_pos hc]
    have e2 : applyOperator o2 s = ⟨['0'], s.current ++ [o2], false⟩ := by
      unfold applyOperator
      rw [if_pos hc]
    rw [e1, e2]
    unfold applyOperator
    rw [if_neg (by simp), if_pos (endsWithOp_concat s.current o1 ho1),
      List.dropLast_concat]
  · by_cases he : endsWithOp s.history
    · have e1 : applyOperator o1 s
          = ⟨['0'], s.history.dropLast ++ [o1], s.consumedResult⟩ := by
        unfold applyOperator
        rw [if_neg hc, if_pos he]
      have e2 : applyOperator o2 s
          = ⟨['0'], s.history.dropLast ++ [o2], s.consumedResult⟩ := by
        unfold applyOperator
        rw [if_neg hc, if_pos he]
      rw [e1, e2]
      unfold applyOperator
      rw [if_neg hc, if_pos (endsWithOp_concat s.history.dropLast o1 ho1),
        List.dropLast_concat]
    · have e1 : applyOperator o1 s
          = ⟨['0'], s.history ++ s.current ++ [o1], s.consumedResult⟩ := by
        unfold applyOperator
        rw [if_neg hc, if_neg he]
      have e2 : applyOperator o2 s
          = ⟨['0'], s.history ++ s.current ++ [o2], s.consumedResult⟩ := by
        unfold applyOperator
        rw [if_neg hc, if_neg he]
      rw [e1, e2]
      unfold applyOperator
      rw [if_neg hc,
        if_pos (endsWithOp_concat (s.history ++ s.current) o1 ho1),
        List.dropLast_concat]

/-- Witness for C4 at concrete operators `+` then `*` on the startup state. -/
theorem operator_replacement_collapse_witness :
    ('+') ∈ (['+', '-', '*', '/'] : List Char) ∧
    applyOperator '*' (applyOperator '+' initState)
      = applyOperator '*' initState :=
  ⟨by decide,
   operator_replacement_collapse initState '+' '*' (by decide) (by decide)⟩

/-- C5.  Evaluating from the state with `history = "2+"` and `current = "3"`
succeeds and yields `current = "5"`, `history = "2+3 ="`, and
`justEvaluated = true` (with no error display). -/
theorem evaluate_two_plus_three :
    evaluateExpression ⟨"3".toList, "2+".toList, false⟩
      = (⟨"5".toList, "2+3 =".toList, true⟩, none) := by
  with_unfolding_all decide

/-- C6.  On a successful evaluation with finite (idealized rational) result
`q`, the displayed `current` is `formatResult q`; an integer result is
rendered without a decimal point and denotes exactly `q`; a non-integer
result is rendered as a decimal string that denotes exactly the 10-fractional-
digit rounding of `q` (within `1/(2*10^10)` of `q`) with all trailing zeros
stripped. -/
theorem result_formatting (s : CalcState) (q : ℚ)
    (hne : normalizeVisual (s.history ++ s.current) ≠ [])
    (hok : safeEval (normalizeVisual (s.history ++ s.current)) = .ok (.fin q)) :
    (evaluateExpression s).1.current = formatResult q ∧
    (q.den = 1 → '.' ∉ formatResult q ∧ decValue (formatResult q) = some q) ∧
    (q.den ≠ 1 →
      decValue (formatResult q) = some (round10 q) ∧
      noTrailingZeros (formatResult q) ∧
      |round10 q - q| ≤ 1 / (2 * 10 ^ 10)) := by
  refine ⟨?_, ?_, ?_⟩
  · simp only [evaluateExpression]
    rw [if_neg hne, hok]
  · intro hden
    unfold formatResult
    rw [if_pos hden]
    refine ⟨intToChars_no_dot q.num, ?_⟩
    rw [decValue_intToChars]
    congr 1
    conv_rhs => rw [← Rat.num_div_den q]
    rw [hden]
    norm_num
  · intro hden
    unfold formatResult
    rw [if_neg hden]
    refine ⟨?_, noTrailingZeros_renderFixed _ _, round10_near q⟩
    rw [decValue_renderFixed]
    rfl

/-- Witness for C6: evaluating `10/3` renders `current = "3.3333333333"`,
which denotes exactly the 10-digit rounding of `10/3`. -/
theorem result_formatting_ten_thirds :
    safeEval (normalizeVisual ("10/".toList ++ "3".toList)) = .ok (.fin (10 / 3)) ∧
    (evaluateExpression ⟨"3".toList, "10/".toList, false⟩).1.current
      = "3.3333333333".toList ∧
    decValue ("3.3333333333".toList) = some (round10 (10 / 3)) := by
  have h := result_formatting ⟨"3".toList, "10/".toList, false⟩ (10 / 3)
    (by with_unfolding_all decide) (by with_unfolding_all decide)
  have hfmt : formatResult (10 / 3) = "3.3333333333".toList := by
    with_unfolding_all decide
  refine ⟨by with_unfolding_all decide, ?_, ?_⟩
  · rw [h.1, hfmt]
  · rw [← hfmt]
    exact (h.2.2 (by with_unfolding_all decide)).1

/-- C7.  When `safeEval` succeeds on `current` alone, `doPercent` replaces
`current` with the string of the evaluated value divided by 100 and leaves
`history` (and `justEvaluated`) unchanged, with no error display. -/
theorem percent_divides_by_100 (s : CalcState) (v : JSVal)
    (h : safeEval s.current = .ok v) :
    doPercent s
      = ({ s with current := jsValToString (divV v (.fin 100)) }, none) := by
  unfold doPercent
  rw [h]

/-- Witness for C7: percent on `current = "50"` yields `current = "0.5"`,
`history` unchanged. -/
theorem percent_fifty :
    safeEval ("50".toList) = .ok (.fin 50) ∧
    doPercent ⟨"50".toList, "7+".toList, false⟩
      = (⟨"0.5".toList, "7+".toList, false⟩, none) := by
  constructor
  · with_unfolding_all decide
  · rw [percent_divides_by_100 ⟨"50".toList, "7+".toList, false⟩ (.fin 50)
      (by with_unfolding_all decide)]
    with_unfolding_all decide

/-- C8.  `clearAll` resets every state to exactly
`{current := "0", history := "", justEvaluated := false}`. -/
theorem clear_resets (s : CalcState) :
    clearAll s = ⟨"0".toList, "".toList, false⟩ := rfl

/-- C9.  Any expression whose whitespace-stripped form passes the character
whitelist and the malformed-operator check but is longer than 180 characters
fails with `ExpressionTooLong` for EVERY arithmetic evaluator `ev` — i.e.
before any arithmetic evaluation is attempted. -/
theorem too_long_before_eval (ev : List Char → Option JSVal)
    (expr : List Char)
    (h1 : (stripWS (normalizeVisual expr)).any (fun c => !isAllowedChar c) = false)
    (h2 : malformedHit (stripWS (normalizeVisual expr)) = false)
    (h3 : 180 < (stripWS (normalizeVisual expr)).length) :
    safeEvalGen ev expr = .err .ExpressionTooLong := by
  simp only [safeEvalGen]
  rw [if_neg (by simp [h1]), if_neg (by simp [h2]), if_pos h3]

/-- Witness for C9: a 181-character run of `1`s fails with
`ExpressionTooLong` under the real evaluator. -/
theorem too_long_181_ones :
    safeEvalGen jsEval (List.replicate 181 '1') = .err .ExpressionTooLong :=
  too_long_before_eval jsEval (List.replicate 181 '1')
    (by with_unfolding_all decide) (by with_unfolding_all decide)
    (by with_unfolding_all decide)

/-- C10.  With `justEvaluated = false` and a `history` ending in an operator
character, `applyOperator` both replaces the trailing operator and resets
`current` to `"0"`, discarding any operand digits typed since the previous
operator. -/
theorem operator_replacement_resets_current (s : CalcState) (op : Char)
    (h1 : s.consumedResult = false) (h2 : endsWithOp s.history = true) :
    applyOperator op s = ⟨['0'], s.history.dropLast ++ [op], false⟩ := by
  unfold applyOperator
  rw [if_neg (by simp [h1]), if_pos h2, h1]

/-- Witness for C10: from `history = "2+"`, `current = "5"`, applying `+`
yields `history = "2+"` and `current = "0"`, losing the `5`. -/
theorem operator_replacement_resets_current_witness :
    endsWithOp ("2+".toList) = true ∧
    applyOperator '+' ⟨"5".toList, "2+".toList, false⟩
      = ⟨"0".toList, "2+".toList, false⟩ := by
  refine ⟨by decide, ?_⟩
  rw [operator_replacement_resets_current ⟨"5".toList, "2+".toList, false⟩ '+'
    rfl (by decide)]
  decide

end Calc
